import Mathlib

/-!
# Verification of the text-counter-pro text-metrics engine

Shallow embedding of the pure text-metrics functions of the repository
(`src/scripts/modules/text-processor.js` and `src/scripts/modules/fuzzy-search.js`)
together with proofs and refutations of the specification claims.

Modelling conventions:
* A JS string is modelled as `List Char` (one element per UTF-16 code unit;
  all inputs of interest live in the Basic Multilingual Plane).
* JS numbers are modelled as exact rationals (`ℚ`); `Math.floor` is `Int.floor`
  and `Math.round x` is `⌊x + 1/2⌋`, which is the JS round-half-up rule.
  Division is modelled by `jsDiv`, which produces the JS special values
  `NaN` / `±Infinity` on a zero divisor.
* `String.prototype.toLowerCase` is modelled per code unit by
  `jsToLowerChar`: exact on Basic Latin and on the two mappings whose output
  crosses into ASCII (U+212A KELVIN SIGN ↦ `k`, U+0130 ↦ `i` + U+0307);
  all remaining real mappings stay inside the non-ASCII class, which no
  character class used by this code distinguishes, and are modelled as the
  identity.
* Regular expressions are translated into explicit scanners; each scanner
  mirrors the corresponding JS regex as used at its call site (global
  non-overlapping matching, leftmost-longest alternatives, greedy
  quantifiers with backtracking against lookaheads).
-/

/-! ## Character classes (the classes used by the JS regexes) -/

/-- The class `\w` of the JS regexes: `[A-Za-z0-9_]`. -/
def isWordChar (c : Char) : Bool :=
  decide ((48 ≤ c.toNat ∧ c.toNat ≤ 57) ∨ (65 ≤ c.toNat ∧ c.toNat ≤ 90) ∨
    (97 ≤ c.toNat ∧ c.toNat ≤ 122) ∨ c.toNat = 95)

/-- The continuation class `[\w.'-]` of the word regex in `getWords`. -/
def isContChar (c : Char) : Bool :=
  isWordChar c || c.toNat == 46 || c.toNat == 39 || c.toNat == 45

/-- JS line terminators (excluded by an unflagged `.` in a regex):
`\n`, `\r`, U+2028, U+2029. -/
def isLineTerm (c : Char) : Bool :=
  c.toNat == 10 || c.toNat == 13 || c.toNat == 8232 || c.toNat == 8233

/-- The class `\s` of JS regexes (also the set removed by `String.trim`):
ASCII whitespace plus the Unicode space separators, line separators and BOM. -/
def jsWhitespace (c : Char) : Bool :=
  decide ((9 ≤ c.toNat ∧ c.toNat ≤ 13) ∨ c.toNat = 32 ∨ c.toNat = 160 ∨
    c.toNat = 5760 ∨ (8192 ≤ c.toNat ∧ c.toNat ≤ 8202) ∨ c.toNat = 8232 ∨
    c.toNat = 8233 ∨ c.toNat = 8239 ∨ c.toNat = 8287 ∨ c.toNat = 12288 ∨
    c.toNat = 65279)

/-- The sentence-terminating punctuation class `[.!?]` of `getSentences`. -/
def isTermPunct (c : Char) : Bool :=
  c == '.' || c == '!' || c == '?'

/-- The vowel class `[aeiouAEIOU]` of `getVowelCharCount`. -/
def isAeiou (c : Char) : Bool :=
  c == 'a' || c == 'e' || c == 'i' || c == 'o' || c == 'u' ||
  c == 'A' || c == 'E' || c == 'I' || c == 'O' || c == 'U'

/-- The Basic Latin case lowering (`A`–`Z` ↦ `a`–`z`, identity elsewhere).
This is the restriction of `toLowerCase` to ASCII, and also the case folding
of the regex `i` flag (whose `Canonicalize`, built on `toUpperCase`, never
folds a non-ASCII character together with an ASCII one). -/
def asciiLower (c : Char) : Char :=
  if 65 ≤ c.toNat ∧ c.toNat ≤ 90 then Char.ofNat (c.toNat + 32) else c

/-- One code unit of `String.prototype.toLowerCase` (Unicode Default Case
Conversion): `A`–`Z` lower to `a`–`z`; U+212A KELVIN SIGN lowers to the ASCII
`k`; U+0130 LATIN CAPITAL LETTER I WITH DOT ABOVE expands to `i` + U+0307.
These are the only mappings whose output leaves the non-ASCII class; every
other real mapping sends a non-ASCII unit to non-ASCII units (and is modelled
as the identity here: no character class used by the regexes of this code —
`\w`, `[\w.'-]`, line terminators, whitespace, `a`–`z` — distinguishes two
non-ASCII units, so those mappings cannot affect the functions modelled). -/
def jsToLowerChar (c : Char) : List Char :=
  if 65 ≤ c.toNat ∧ c.toNat ≤ 90 then [Char.ofNat (c.toNat + 32)]
  else if c.toNat = 8490 then ['k']
  else if c.toNat = 304 then ['i', '\u0307']
  else [c]

/-- `String.prototype.toLowerCase` on a whole string (see `jsToLowerChar`;
note that U+0130 expands, so the result can be longer than the input). -/
def jsToLower : List Char → List Char
  | [] => []
  | c :: cs => jsToLowerChar c ++ jsToLower cs

/-- Whether the character before the scan position is a word character
(`false` at the start of the string). -/
def prevIsWord : Option Char → Bool
  | none => false
  | some c => isWordChar c

/-! ## Basic string helpers (`trim`, `replace(/\s+/g, " ")`, `split(/\s+/)`) -/

/-- `String.prototype.trim`. -/
def trimChars (s : List Char) : List Char :=
  ((s.dropWhile jsWhitespace).reverse.dropWhile jsWhitespace).reverse

/-- Worker for `collapseWs`; `inWs` records whether the previous character was
whitespace (so that a whole run collapses to one space). -/
def collapseGo (inWs : Bool) : List Char → List Char
  | [] => []
  | c :: cs =>
    if jsWhitespace c then
      (if inWs then [] else [' ']) ++ collapseGo true cs
    else c :: collapseGo false cs

/-- `replace(/\s+/g, " ")`: every maximal whitespace run becomes one space. -/
def collapseWs (s : List Char) : List Char :=
  collapseGo false s

/-- Worker for `splitWs`.  `inWs` records whether the scanner is inside a
whitespace run; `acc` is the reversed current field.  JS
`split(/\s+/)` keeps the empty fields produced by leading/trailing
whitespace, and `"".split(/\s+/)` is `[""]`. -/
def splitWsGo (inWs : Bool) (acc : List Char) : List Char → List (List Char)
  | [] => [acc.reverse]
  | c :: cs =>
    if jsWhitespace c then
      if inWs then splitWsGo true [] cs
      else acc.reverse :: splitWsGo true [] cs
    else splitWsGo false (c :: acc) cs

/-- `String.prototype.split(/\s+/)`. -/
def splitWs (s : List Char) : List (List Char) :=
  splitWsGo false [] s

/-- `replace(/[.!?]+$/, "")`: strip the maximal trailing run of `[.!?]`. -/
def stripEndPunct (s : List Char) : List Char :=
  (s.reverse.dropWhile isTermPunct).reverse

/-! ## Character counters (`text-processor.js` lines 7–207) -/

/-- `getCharCount`: `text.length` (number of UTF-16 code units). -/
def getCharCount (t : List Char) : Nat := t.length

/-- `getCharCountNoSpaces`: `text.replace(/\s/g, "").length`. -/
def getCharCountNoSpaces (t : List Char) : Nat :=
  (t.filter (fun c => !jsWhitespace c)).length

/-- `getAsciiCharCount`: count of matches of `/[\x00-\x7F]/g`. -/
def getAsciiCharCount (t : List Char) : Nat :=
  (t.filter (fun c => c.toNat ≤ 127)).length

/-- `getNonAsciiCharCount`: count of matches of `/[^\x00-\x7F]/g`. -/
def getNonAsciiCharCount (t : List Char) : Nat :=
  (t.filter (fun c => !(c.toNat ≤ 127))).length

/-- The matches of `/(?<!\b)[yY](?![aeiouAEIOU])/g`: a `y`/`Y` at a position
where `\b` fails (i.e. not at a word boundary) whose next character is not in
`[aeiouAEIOU]`.  Every match has length 1, so global matching visits every
position; `prev` is the character before the current position. -/
def yVowelScan (prev : Option Char) : List Char → Nat
  | [] => 0
  | c :: cs =>
    let boundary := prevIsWord prev != isWordChar c
    let hit := (c == 'y' || c == 'Y') && !boundary &&
      (match cs with | d :: _ => !isAeiou d | [] => true)
    (if hit then 1 else 0) + yVowelScan (some c) cs

/-- `getVowelCharCount`: matches of `/[aeiouAEIOU]/g` plus matches of
`/(?<!\b)[yY](?![aeiouAEIOU])/g`. -/
def getVowelCharCount (t : List Char) : Nat :=
  (t.filter isAeiou).length + yVowelScan none t

/-- The vowel rule exactly as the specification states it: `a,e,i,o,u` in
either case always count, and a `y`/`Y` counts exactly when it is *not at a
word start* (its predecessor is a word character) and *not immediately
followed by another vowel*. -/
def yRuleScan (prev : Option Char) : List Char → Nat
  | [] => 0
  | c :: cs =>
    let hit := (c == 'y' || c == 'Y') && prevIsWord prev &&
      (match cs with | d :: _ => !isAeiou d | [] => true)
    (if hit then 1 else 0) + yRuleScan (some c) cs

/-- Claim-side count for C8 (see `yRuleScan`). -/
def vowelRuleCount (t : List Char) : Nat :=
  (t.filter isAeiou).length + yRuleScan none t

/-! ## Tokenizer (`getWords`, `text-processor.js` lines 215–227)

The word regex is `/(?:\b|\\.)\w[\w.'-]*(?=\b|\\.|$)/gi`.  A match starts
either at a word boundary followed by a `\w` character (alternative A), or
with a literal backslash plus any non-line-terminator character followed by a
`\w` character (alternative B).  The greedy run `[\w.'-]*` then backtracks
until the lookahead `(?=\b|\\.|$)` holds.  The `i` flag is irrelevant: all
classes are closed under case. -/

/-- The lookahead `(?=\b|\\.|$)`: `last` is the character just before the
position, `rest` the remaining input.  It holds at end of input, at a word
boundary, or before a literal backslash followed by a non-line-terminator. -/
def lookaheadOk (last : Char) (rest : List Char) : Bool :=
  match rest with
  | [] => true
  | c :: cs =>
    (isWordChar last != isWordChar c) ||
    (c == '\\' && (match cs with | d :: _ => !isLineTerm d | [] => false))

/-- Backtracking of the greedy run `[\w.'-]*`: `revRun` is the reversed
not-yet-released part of the run, `rest` the input after it.  The longest
prefix of the run whose end satisfies the lookahead wins; `c` is the mandatory
`\w` character before the run. -/
def btRun (c : Char) : List Char → List Char → Option (List Char × List Char)
  | [], rest => if lookaheadOk c rest then some ([], rest) else none
  | d :: ds, rest =>
    if lookaheadOk d rest then some ((d :: ds).reverse, rest)
    else btRun c ds (d :: rest)

/-- One match attempt at the current position (`prev` = previous character).
Alternative A (`\b\w[\w.'-]*`) requires a word boundary and a `\w` head;
alternative B (`\\.\w[\w.'-]*`) requires a literal backslash, a
non-line-terminator, and a `\w` character.  Returns the match and the rest. -/
def tryMatch (prev : Option Char) (s : List Char) : Option (List Char × List Char) :=
  match s with
  | [] => none
  | c :: cs =>
    if (prevIsWord prev != isWordChar c) && isWordChar c then
      let run := cs.takeWhile isContChar
      let rest := cs.dropWhile isContChar
      match btRun c run.reverse rest with
      | some (kept, rest2) => some (c :: kept, rest2)
      | none => none
    else if c == '\\' then
      match cs with
      | d :: w :: cs2 =>
        if !isLineTerm d && isWordChar w then
          let run := cs2.takeWhile isContChar
          let rest := cs2.dropWhile isContChar
          match btRun w run.reverse rest with
          | some (kept, rest2) => some (c :: d :: w :: kept, rest2)
          | none => none
        else none
      | _ => none
    else none

/-- Global scan of the word regex: try a match at every position, continue
after each match.  `fuel` bounds the recursion; every step consumes at least
one character, so `s.length + 1` fuel is always enough. -/
def scanWordsGo : Nat → Option Char → List Char → List (List Char)
  | 0, _, _ => []
  | _ + 1, _, [] => []
  | fuel + 1, prev, c :: cs =>
    match tryMatch prev (c :: cs) with
    | some (tok, rest) => tok :: scanWordsGo fuel (tok.getLast?.getD ' ') rest
    | none => scanWordsGo fuel (some c) cs

/-- `getWords`: `text.match(/(?:\b|\\.)\w[\w.'-]*(?=\b|\\.|$)/gi) || []`. -/
def getWords (t : List Char) : List (List Char) :=
  scanWordsGo (t.length + 1) none t

/-- `getWordCount`: `getWords(text).length`. -/
def getWordCount (t : List Char) : Nat :=
  (getWords t).length

/-! ## Sentence segmenter (`getSentences`, `text-processor.js` lines 235–389,
helpers `shouldEndSentence` 513–558 and `isJustPunctuation` 566–568) -/

/-- The abbreviation set of `getSentences` (lines 242–327), in source order. -/
def abbreviations : List (List Char) :=
  ["mr", "mrs", "ms", "dr", "prof", "sr", "jr", "capt", "gen", "col", "maj",
   "lt", "vs", "etc", "inc", "ltd", "corp", "co", "llc", "llp", "st", "ave",
   "blvd", "rd", "apt", "no", "vol", "pp", "ch", "sec", "fig", "ref", "i.e",
   "e.g", "cf", "al", "approx", "ca", "circa", "est", "max", "min", "jan",
   "feb", "mar", "apr", "may", "jun", "jul", "aug", "sep", "oct", "nov",
   "dec", "mon", "tue", "wed", "thu", "fri", "sat", "sun", "ft", "in", "lb",
   "oz", "kg", "cm", "mm", "km", "mph", "rpm", "gov", "dept", "div", "assn",
   "org", "admin"].map String.toList

/-- `isJustPunctuation`: `/^[.!?…\s]+$/.test(str)`. -/
def isJustPunctuation (s : List Char) : Bool :=
  !s.isEmpty && s.all (fun c => isTermPunct c || c == '…' || jsWhitespace c)

/-- `shouldEndSentence(sentence, abbreviations)` (lines 513–558).  Note that
`cleanLastWord` keeps only `a`–`z` after lowercasing, so the final
`/^\d+$/` test can only ever see an all-lowercase-letter string; it is
embedded verbatim nonetheless. -/
def shouldEndSentence (s : List Char) : Bool :=
  if List.isSuffixOf ('.' :: '.' :: '.' :: []) s || List.isSuffixOf ('…' :: []) s then
    true
  else if (match s.getLast? with
           | some c => c == '!' || c == '?'
           | none => false) then
    true
  else if s.getLast? == some '.' then
    let words := splitWs (stripEndPunct s)
    let lastWord := (words.getLast?).getD []
    if lastWord.isEmpty then true
    else
      let cleanLastWord :=
        (jsToLower lastWord).filter (fun c => 'a' ≤ c && c ≤ 'z')
      if abbreviations.contains cleanLastWord then false
      else if (match cleanLastWord with
               | c :: [] => ('a' ≤ c && c ≤ 'z') || ('A' ≤ c && c ≤ 'Z')
               | _ => false) then false
      else if lastWord.length ≤ 4 && !lastWord.isEmpty &&
              lastWord.all (fun c => 'A' ≤ c && c ≤ 'Z') then false
      else if !cleanLastWord.isEmpty && cleanLastWord.all Char.isDigit then false
      else true
  else false

/-- Worker for `splitParts`: split while keeping delimiters for
`split(/([.!?]+|\.\.\.|…)/g)`.  Delimiters are maximal runs of `[.!?]`
(the first alternative `[.!?]+` is greedy, so it also swallows `...`) and
single `…` characters.  `acc` is the reversed current chunk, `accIsPunct`
whether it is a `[.!?]` run; empty fields of the JS split are omitted here
(they are removed by the subsequent `.filter(part => part.trim())` anyway). -/
def splitPartsGo (acc : List Char) (accIsPunct : Bool) : List Char → List (List Char)
  | [] => if acc.isEmpty then [] else [acc.reverse]
  | c :: cs =>
    if isTermPunct c then
      if accIsPunct then splitPartsGo (c :: acc) true cs
      else if acc.isEmpty then splitPartsGo (c :: []) true cs
      else acc.reverse :: splitPartsGo (c :: []) true cs
    else if c == '…' then
      if acc.isEmpty then ('…' :: []) :: splitPartsGo [] false cs
      else acc.reverse :: ('…' :: []) :: splitPartsGo [] false cs
    else
      if accIsPunct then acc.reverse :: splitPartsGo (c :: []) false cs
      else splitPartsGo (c :: acc) false cs

/-- `normalizedText.split(/([.!?]+|\.\.\.|…)/g)` with empty fields dropped. -/
def splitParts (s : List Char) : List (List Char) :=
  splitPartsGo [] false s

/-- Is this (already trimmed) part a punctuation delimiter?  The loop tests
`/^[.!?]+$|^\.\.\.$|^…$/`. -/
def isPunctPart (p : List Char) : Bool :=
  (!p.isEmpty && p.all isTermPunct) || p == '…' :: []

/-- The accumulation loop of `getSentences` (lines 341–376): `current` is the
`currentSentence` buffer; the base case is the final flush. -/
def sentLoop (current : List Char) : List (List Char) → List (List Char)
  | [] =>
    if !(trimChars current).isEmpty && !isJustPunctuation (trimChars current) then
      [trimChars current]
    else []
  | p :: rest =>
    let part := trimChars p
    if isPunctPart part then
      let cur := current ++ part
      if shouldEndSentence cur then
        let clean := trimChars cur
        (if !clean.isEmpty && !isJustPunctuation clean then [clean] else []) ++
          sentLoop [] rest
      else
        sentLoop (if !rest.isEmpty then cur ++ [' '] else cur) rest
    else
      let cur :=
        if !current.isEmpty && !(current.getLast? == some ' ') then
          current ++ [' ']
        else current
      sentLoop (cur ++ part) rest

/-- `getSentences` (lines 235–379). -/
def getSentences (t : List Char) : List (List Char) :=
  if t.isEmpty then []
  else
    let normalizedText := collapseWs (trimChars t)
    let parts := (splitParts normalizedText).filter (fun p => !(trimChars p).isEmpty)
    sentLoop [] parts

/-- `getSentenceCount`: `getSentences(text).length`. -/
def getSentenceCount (t : List Char) : Nat :=
  (getSentences t).length

/-! ## JS numbers and the ratio metrics (`text-processor.js` lines 495–504) -/

/-- A JS number that is either an exact rational or one of the special values
produced by dividing by zero. -/
inductive JsNumber where
  | nan : JsNumber
  | posInf : JsNumber
  | negInf : JsNumber
  | num : ℚ → JsNumber
deriving DecidableEq

/-- JS division: finite for a nonzero divisor, `NaN` for `0/0`, `±Infinity`
for `x/0` with `x ≠ 0`. -/
def jsDiv (a b : ℚ) : JsNumber :=
  if b = 0 then
    if a = 0 then JsNumber.nan
    else if 0 < a then JsNumber.posInf
    else JsNumber.negInf
  else JsNumber.num (a / b)

/-- `getAverageWordsPerSentence` (line 495):
`text.trim().length > 0 ? getWordCount(text) / getSentenceCount(text) : 0`. -/
def getAverageWordsPerSentence (t : List Char) : JsNumber :=
  if 0 < (trimChars t).length then
    jsDiv (getWordCount t) (getSentenceCount t)
  else JsNumber.num 0

/-- `getAverageCharsPerWord` (line 504):
`text.trim().length > 0 && getWordCount(text) > 0 ?
 getCharCountNoSpaces(text) / getWordCount(text) : 0`. -/
def getAverageCharsPerWord (t : List Char) : JsNumber :=
  if 0 < (trimChars t).length ∧ 0 < getWordCount t then
    jsDiv (getCharCountNoSpaces t) (getWordCount t)
  else JsNumber.num 0

/-! ## Reading time (`text-processor.js` lines 416–461) -/

/-- `calculateReadingTime`: `getWordCount(text) / wordsPerMinute` — no guard,
so a zero rate produces `Infinity` (or `NaN` on an empty text). -/
def calculateReadingTime (t : List Char) (wordsPerMinute : ℚ) : JsNumber :=
  jsDiv (getWordCount t) wordsPerMinute

/-- `getReadingTimeReadable` (lines 429–461).  The guard
`!wordsPerMinute || +wordsPerMinute === 0` catches exactly the rate `0` for
finite numeric rates.  The local `minutes` is reassigned in the source; the
numbered names record the successive values.  Note the source computes
`hours = minutes - days * 24` (not `hours - days * 24`) in the day branch. -/
def getReadingTimeReadable (t : List Char) (wordsPerMinute : ℚ) : String :=
  if wordsPerMinute = 0 then "0m 0s"
  else
    let totalTime : ℚ := (getWordCount t : ℚ) / wordsPerMinute
    let minutes0 : ℤ := ⌊totalTime⌋
    let seconds : ℤ := ⌊(totalTime - minutes0) * 60 + 1/2⌋
    let hours1 : ℤ := if 60 ≤ minutes0 then ⌊(minutes0 : ℚ) / 60⌋ else 0
    let minutes1 : ℤ := if 60 ≤ minutes0 then minutes0 - hours1 * 60 else minutes0
    let days : ℤ := if 24 ≤ hours1 then ⌊(hours1 : ℚ) / 24⌋ else 0
    let hours2 : ℤ := if 24 ≤ hours1 then minutes1 - days * 24 else hours1
    if 0 < days then toString days ++ "d " ++ toString hours2 ++ "h"
    else if 0 < hours2 then toString hours2 ++ "h " ++ toString minutes1 ++ "m"
    else toString minutes1 ++ "m " ++ toString seconds ++ "s"

/-- The amended reading-time formula (claim C5 as corrected): minutes and
seconds by floor/round of the total minutes with *no* carry of a rounded-up
60 s, hours and reduced minutes by Euclidean div/mod, and — reproducing the
source glitch — the hour figure next to a positive day count is
`minutes % 60 - days * 24`. -/
def readableUnits (t : List Char) (wordsPerMinute : ℚ) : String :=
  let totalTime : ℚ := (getWordCount t : ℚ) / wordsPerMinute
  let m0 : ℤ := ⌊totalTime⌋
  let s0 : ℤ := ⌊(totalTime - m0) * 60 + 1/2⌋
  let h : ℤ := m0 / 60
  let m : ℤ := m0 % 60
  let d : ℤ := h / 24
  if 0 < d then toString d ++ "d " ++ toString (m - d * 24) ++ "h"
  else if 0 < h then toString h ++ "h " ++ toString m ++ "m"
  else toString m ++ "m " ++ toString s0 ++ "s"

/-! ## Word frequency (`calculateWordFrequency`, `text-processor.js`
lines 469–486) -/

/-- One step of the counting loop: `wordFrequencies.set(word,
(wordFrequencies.get(word) || 0) + 1)`.  A JS `Map` updates an existing key
in place and appends a new key at the end, so insertion order is
first-occurrence order. -/
def bump (w : List Char) : List (List Char × Nat) → List (List Char × Nat)
  | [] => [(w, 1)]
  | (u, c) :: rest => if u = w then (u, c + 1) :: rest else (u, c) :: bump w rest

/-- The `Map` built by the counting loop, as an insertion-ordered
association list. -/
def buildFreq (words : List (List Char)) : List (List Char × Nat) :=
  words.foldl (fun m w => bump w m) []

/-- Stable insertion for a descending sort by the key `f`: the new element
goes after every existing element with a key `≥` its own.  `Array.prototype
.sort` is stable and a stable sort by one key is unique, so this models the
JS `sort((a, b) => keyB - keyA)` exactly. -/
def insDescBy {α : Type} (f : α → ℤ) (x : α) : List α → List α
  | [] => [x]
  | y :: ys => if f x < f y then y :: insDescBy f x ys else x :: y :: ys

/-- Stable descending insertion sort by the key `f` (see `insDescBy`). -/
def sortDescBy {α : Type} (f : α → ℤ) : List α → List α
  | [] => []
  | x :: xs => insDescBy f x (sortDescBy f xs)

/-- `calculateWordFrequency` (lines 469–486): count the words of the
lowercased text, then
`Array.from(wordFrequencies.entries()).sort((a, b) => b[1] - a[1])`. -/
def calculateWordFrequency (t : List Char) : List (List Char × Nat) :=
  if t.isEmpty then []
  else
    let words := getWords (jsToLower t)
    if words.isEmpty then []
    else sortDescBy (fun e => (e.2 : ℤ)) (buildFreq words)

/-- Sum of the counts of a frequency table. -/
def sumCounts (l : List (List Char × Nat)) : Nat :=
  (l.map (fun e => e.2)).sum

/-- Index of the first occurrence of `w` in `ws` (length of `ws` if absent);
used to state the first-occurrence tie-breaking order of claim C6. -/
def firstIdx (w : List Char) : List (List Char) → Nat
  | [] => 0
  | u :: us => if u = w then 0 else firstIdx w us + 1

/-! ## Fuzzy search (`fuzzy-search.js`) -/

/-- A token of the compiled query pattern of `createPattern`: after escaping
all regex metacharacters, `\*` is rewritten to `.*` and `\?` to `.`, so the
pattern is a sequence of literals, single-character wildcards and `.*`. -/
inductive PatTok where
  | lit : Char → PatTok
  | dot : PatTok
  | star : PatTok
deriving DecidableEq

/-- `createPattern(term)` (fuzzy-search.js lines 15–19). -/
def mkPattern (term : List Char) : List PatTok :=
  term.map (fun c => if c == '*' then PatTok.star
                     else if c == '?' then PatTok.dot
                     else PatTok.lit c)

/-- `String.prototype.includes`: does `needle` occur as a contiguous
substring? -/
def containsSub (needle : List Char) : List Char → Bool
  | [] => List.isPrefixOf needle []
  | c :: cs => List.isPrefixOf needle (c :: cs) || containsSub needle cs

/-- Case-insensitive character comparison of the regex `i` flag (without
`u`): `Canonicalize` maps through `toUpperCase` and never folds a non-ASCII
character together with an ASCII one, so ASCII case folding is the faithful
comparison on the ASCII range. -/
def eqCI (a b : Char) : Bool :=
  asciiLower a == asciiLower b

/-- Does the pattern match a prefix of `s`?  `.` matches any single
non-line-terminator; `.*` any run of non-line-terminators.  `fuel` bounds the
recursion; every call decreases `p.length + s.length`, so
`p.length + s.length + 1` is always enough. -/
def matchHere : Nat → List PatTok → List Char → Bool
  | 0, _, _ => false
  | _ + 1, [], _ => true
  | fuel + 1, tok :: ps, s =>
    match tok with
    | PatTok.lit c =>
      match s with
      | [] => false
      | x :: xs => eqCI c x && matchHere fuel ps xs
    | PatTok.dot =>
      match s with
      | [] => false
      | x :: xs => !isLineTerm x && matchHere fuel ps xs
    | PatTok.star =>
      matchHere fuel ps s ||
        (match s with
         | [] => false
         | x :: xs => !isLineTerm x && matchHere fuel (PatTok.star :: ps) xs)

/-- `pattern.test(word)`: does the pattern match starting at some position? -/
def regexTest (p : List PatTok) : List Char → Bool
  | [] => matchHere (p.length + 1) p []
  | c :: cs =>
    matchHere (p.length + (c :: cs).length + 1) p (c :: cs) || regexTest p cs

/-- One row update of the `levenshteinDistance` DP matrix: walk along `str1`
with the previous row (`diag :: rest` is the previous row from position
`i - 1` on) and the value `left` just computed in the current row. -/
def buildRow (c2 : Char) : List Char → List Nat → Nat → List Nat
  | [], _, _ => []
  | c1 :: cs, diag :: rest, left =>
    let cost := if c1 == c2 then 0 else 1
    let above := match rest with | a :: _ => a | [] => 0
    let cur := min (min (left + 1) (above + 1)) (diag + cost)
    cur :: buildRow c2 cs rest cur
  | _ :: _, [], _ => []

/-- The next full row of the DP matrix (first entry is the row index `j`,
i.e. one more than the first entry of the previous row). -/
def levRow (c2 : Char) (s1 : List Char) (prev : List Nat) : List Nat :=
  match prev with
  | p0 :: _ => (p0 + 1) :: buildRow c2 s1 prev (p0 + 1)
  | [] => []

/-- `levenshteinDistance(str1, str2)` (fuzzy-search.js lines 75–94): classic
DP edit distance, row by row; the result is the last entry of the last row. -/
def levenshteinDistance (s1 s2 : List Char) : Nat :=
  let row0 := List.range (s1.length + 1)
  let final := s2.foldl (fun r c2 => levRow c2 s1 r) row0
  (final.getLast?).getD 0

/-- `calculateSimilarity(str1, str2)` (fuzzy-search.js lines 64–72). -/
def calculateSimilarity (str1 str2 : List Char) : ℚ :=
  let longer := if str1.length > str2.length then str1 else str2
  let shorter := if str1.length > str2.length then str2 else str1
  if longer.length = 0 then 1
  else ((longer.length : ℚ) - levenshteinDistance longer shorter) / longer.length

/-- The score the loop body of `fuzzySearch` assigns to a table entry for a
given (lowercased, trimmed) search term: tier base plus raw frequency, or `0`
when nothing matches (`0.6` is exact here; the JS double nearest `0.6` lies
below `3/5` and every similarity equal to `3/5` compares equal to it in JS as
well). -/
def scoreOf (searchTerm : List Char) (e : List Char × Nat) : ℤ :=
  let lowerWord := jsToLower e.1
  if lowerWord = searchTerm then 1000 + (e.2 : ℤ)
  else if List.isPrefixOf searchTerm lowerWord then 800 + (e.2 : ℤ)
  else if containsSub searchTerm lowerWord then 600 + (e.2 : ℤ)
  else if regexTest (mkPattern searchTerm) e.1 then 400 + (e.2 : ℤ)
  else
    let similarity := calculateSimilarity lowerWord searchTerm
    if 3/5 < similarity then ⌊similarity * 200⌋ + (e.2 : ℤ) else 0

/-- `fuzzySearch(query, wordFrequencies, limit)` (fuzzy-search.js lines
2–61): score every entry, keep positive scores as `[word, frequency, score]`
triples, sort by score descending (stable), truncate to `limit`, drop the
scores. -/
def fuzzySearch (query : List Char) (wordFrequencies : List (List Char × Nat))
    (limit : Nat) : List (List Char × Nat) :=
  if wordFrequencies.length = 0 then []
  else if (trimChars query).isEmpty then wordFrequencies.take limit
  else
    let searchTerm := trimChars (jsToLower query)
    let results := wordFrequencies.filterMap (fun e =>
      let score := scoreOf searchTerm e
      if 0 < score then some (e.1, e.2, score) else none)
    ((sortDescBy (fun r => r.2.2) results).take limit).map
      (fun r => (r.1, r.2.1))

/-! ## Helper lemmas -/

/-- The two `y` scans agree: for a match of `[yY]`, the matched character is a
word character, so the negative lookbehind `(?<!\b)` is exactly "the previous
character is a word character". -/
theorem yVowelScan_eq_yRuleScan (s : List Char) :
    ∀ prev, yVowelScan prev s = yRuleScan prev s := by
  induction s with
  | nil => intro prev; rfl
  | cons c cs ih =>
    intro prev
    simp only [yVowelScan, yRuleScan]
    rw [ih]
    congr 2
    by_cases hy : (c == 'y' || c == 'Y') = true
    · have hw : isWordChar c = true := by
        rcases Bool.or_eq_true_iff.mp hy with h | h
        · rw [eq_of_beq h]; decide
        · rw [eq_of_beq h]; decide
      rw [hw]
      cases prevIsWord prev <;> simp [hy]
    · simp only [Bool.not_eq_true] at hy
      rw [hy]
      simp

/-! ## Claim C9 -/

/-- C9: for every string `t`, `asciiCount(t) + nonAsciiCount(t) = charCount(t)`:
the ASCII (code unit ≤ 0x7F) and non-ASCII classifications partition the
text's code units, so the two counts always sum to the total character
count. -/
theorem C9_ascii_nonascii_partition (t : List Char) :
    getAsciiCharCount t + getNonAsciiCharCount t = getCharCount t := by
  induction t with
  | nil => rfl
  | cons c cs ih =>
    simp only [getAsciiCharCount, getNonAsciiCharCount, getCharCount,
      List.filter_cons, List.length_cons] at *
    by_cases h : c.toNat ≤ 127 <;> simp [h] <;> omega

/-! ## Claim C8 -/

/-- C8: for every text, `vowelCount` counts every occurrence of
`a`, `e`, `i`, `o`, `u` in either case, and counts an occurrence of `y`/`Y`
exactly when it is not at a word start (i.e. the preceding character is a
word character) and not immediately followed by another vowel
(`vowelRuleCount` is that rule verbatim). -/
theorem C8_vowel_rule (t : List Char) : getVowelCharCount t = vowelRuleCount t := by
  unfold getVowelCharCount vowelRuleCount
  rw [yVowelScan_eq_yRuleScan]

/-! ## Claim C7 -/

/-- C7: `segment("Dr. Smith went home.")` returns exactly one sentence — the
period after the abbreviation `Dr` (a member of the abbreviation set) does
not produce a sentence break. -/
theorem C7_abbreviation_no_split :
    getSentences ("Dr. Smith went home.".toList) =
      [("Dr. Smith went home.".toList)] := by
  decide

/-! ## Claim C1 (corrected) -/

/-- C1 counterexample: on the non-blank, punctuation-only text `"."` both the
word count and the sentence count are `0`, the guard `text.trim().length > 0`
does not fire, and `averageWordsPerSentence` evaluates `0 / 0`, i.e. `NaN` —
not `0` as the claim states. -/
theorem C1_counterexample :
    getAverageWordsPerSentence (".".toList) = JsNumber.nan ∧
      getAverageWordsPerSentence (".".toList) ≠ JsNumber.num 0 := by
  constructor
  · decide
  · decide

/-- C1 as amended: `averageCharsPerWord` returns `0` whenever the word count
is zero (its guard checks the divisor), and `averageWordsPerSentence` returns
`0` for blank text; but on non-blank text `averageWordsPerSentence` divides
unguarded, so a punctuation-only input such as `"."` yields `NaN`. -/
theorem C1_amended :
    (∀ t : List Char, getWordCount t = 0 →
        getAverageCharsPerWord t = JsNumber.num 0) ∧
      (∀ t : List Char, trimChars t = [] →
        getAverageWordsPerSentence t = JsNumber.num 0) ∧
      getAverageWordsPerSentence (".".toList) = JsNumber.nan := by
  refine ⟨fun t ht => ?_, fun t ht => ?_, by decide⟩
  · unfold getAverageCharsPerWord
    rw [if_neg]
    intro h
    omega
  · unfold getAverageWordsPerSentence
    rw [ht]
    simp

/-- Witness for `C1_amended` at the concrete inputs `"."` (word count `0`)
and `" "` (blank). -/
theorem C1_amended_witness :
    getAverageCharsPerWord (".".toList) = JsNumber.num 0 ∧
      getAverageWordsPerSentence (" ".toList) = JsNumber.num 0 :=
  ⟨C1_amended.1 (".".toList) (by decide), C1_amended.2.1 (" ".toList) (by decide)⟩

/-! ## Claim C4 (corrected) -/

/-- C4 counterexample: the guard of `getReadingTimeReadable` is
`!wordsPerMinute || +wordsPerMinute === 0`, which a *negative* rate passes —
at rate `-1` on a one-word text the function computes `"-1m 0s"`, not the
sentinel `"0m 0s"`; and `calculateReadingTime` has no guard at all, so a rate
of `0` on a non-empty text produces `Infinity` rather than avoiding the
division. -/
theorem C4_counterexample :
    getReadingTimeReadable ("a".toList) (-1) = "-1m 0s" ∧
      getReadingTimeReadable ("a".toList) (-1) ≠ "0m 0s" ∧
      calculateReadingTime ("a".toList) 0 = JsNumber.posInf := by
  have hw : getWordCount ("a".toList) = 1 := by decide
  have e1 : ((getWordCount ("a".toList) : ℚ)) / (-1) = -1 := by rw [hw]; norm_num
  have h2 : ⌊(-1 : ℚ)⌋ = -1 := by
    rw [show ((-1:ℚ)) = ((-1 : ℤ) : ℚ) by norm_num, Int.floor_intCast]
  have main : getReadingTimeReadable ("a".toList) (-1) = "-1m 0s" := by
    simp only [getReadingTimeReadable]
    rw [if_neg (by norm_num)]
    rw [e1, h2]
    norm_num
    decide
  refine ⟨main, by rw [main]; decide, ?_⟩
  unfold calculateReadingTime jsDiv
  rw [if_pos rfl, if_neg (by rw [hw]; norm_num), if_pos (by rw [hw]; norm_num)]

/-- C4 as amended: `readingTimeReadable` returns the sentinel `"0m 0s"`
exactly for rate `0` (for every text), but a negative rate is *not* caught
(at rate `-1` on `"a"` it returns `"-1m 0s"`), and `readingTimeMinutes`
(`calculateReadingTime`) has no guard: with a `0` rate and a positive word
count it returns `Infinity`. -/
theorem C4_amended :
    (∀ t : List Char, getReadingTimeReadable t 0 = "0m 0s") ∧
      (∀ t : List Char, 0 < getWordCount t →
        calculateReadingTime t 0 = JsNumber.posInf) ∧
      getReadingTimeReadable ("a".toList) (-1) ≠ "0m 0s" := by
  refine ⟨fun t => ?_, fun t ht => ?_, ?_⟩
  · unfold getReadingTimeReadable
    rw [if_pos rfl]
  · unfold calculateReadingTime jsDiv
    rw [if_pos rfl, if_neg (by positivity), if_pos (by positivity)]
  · have hw : getWordCount ("a".toList) = 1 := by decide
    have e1 : ((getWordCount ("a".toList) : ℚ)) / (-1) = -1 := by rw [hw]; norm_num
    have h2 : ⌊(-1 : ℚ)⌋ = -1 := by
      rw [show ((-1:ℚ)) = ((-1 : ℤ) : ℚ) by norm_num, Int.floor_intCast]
    have main : getReadingTimeReadable ("a".toList) (-1) = "-1m 0s" := by
      simp only [getReadingTimeReadable]
      rw [if_neg (by norm_num)]
      rw [e1, h2]
      norm_num
      decide
    rw [main]
    decide

/-- Witness for `C4_amended` at the one-word text `"a"`. -/
theorem C4_amended_witness :
    getReadingTimeReadable ("a".toList) 0 = "0m 0s" ∧
      calculateReadingTime ("a".toList) 0 = JsNumber.posInf :=
  ⟨C4_amended.1 ("a".toList), C4_amended.2.1 ("a".toList) (by decide)⟩

/-! ## Claim C5 (corrected) -/

/-- C5 counterexample: at rate `1/1440` words per minute a one-word text
reads in exactly one day, but the source computes the hour figure of the day
branch as `minutes - days * 24`, giving `"1d -24h"` instead of the `"1d 0h"`
that successive floor/modulo derivation would give; and at rate `120/119` the
total is `59.5` seconds, which rounds to `60` with *no* carry into minutes,
displaying `"0m 60s"` (carry would give `"1m 0s"`). -/
theorem C5_counterexample :
    getReadingTimeReadable ("a".toList) (1/1440) = "1d -24h" ∧
      getReadingTimeReadable ("a".toList) (1/1440) ≠ "1d 0h" ∧
      getReadingTimeReadable ("a".toList) (120/119) = "0m 60s" := by
  have hw : getWordCount ("a".toList) = 1 := by decide
  have main1 : getReadingTimeReadable ("a".toList) (1/1440) = "1d -24h" := by
    have e1 : ((getWordCount ("a".toList) : ℚ)) / (1/1440) = 1440 := by
      rw [hw]; norm_num
    have h2 : ⌊(1440 : ℚ)⌋ = 1440 := by
      rw [show ((1440:ℚ)) = ((1440 : ℤ) : ℚ) by norm_num, Int.floor_intCast]
    have h3 : ⌊((1440 : ℤ) : ℚ) / 60⌋ = 24 := by
      rw [show (((1440:ℤ):ℚ)) / 60 = ((24 : ℤ) : ℚ) by norm_num, Int.floor_intCast]
    have h4 : ⌊((24:ℚ))/24⌋ = 1 := by
      rw [show ((24:ℚ))/24 = ((1:ℤ):ℚ) by norm_num, Int.floor_intCast]
    simp only [getReadingTimeReadable]
    rw [if_neg (by norm_num)]
    rw [e1, h2, h3]
    norm_num [h4]
    rfl
  have main2 : getReadingTimeReadable ("a".toList) (120/119) = "0m 60s" := by
    have e1 : ((getWordCount ("a".toList) : ℚ)) / (120/119) = 119/120 := by
      rw [hw]; norm_num
    have h2 : ⌊(119/120 : ℚ)⌋ = 0 := by
      rw [Int.floor_eq_iff]
      norm_num
    simp only [getReadingTimeReadable]
    rw [if_neg (by norm_num)]
    rw [e1, h2]
    have h3 : ⌊((119/120 : ℚ) - ((0:ℤ):ℚ)) * 60 + 1/2⌋ = 60 := by
      rw [Int.floor_eq_iff]
      norm_num
    rw [h3]
    norm_num
    rfl
  exact ⟨main1, by rw [main1]; decide, main2⟩

/-- C5 as amended: for every text and positive rate, the readable string is
produced from `T = wordCount / rate` by `minutes = ⌊T⌋`,
`seconds = ⌊(T - minutes)·60 + 1/2⌋` with *no* carry of a rounded-up 60,
`hours = minutes / 60` and reduced `minutes % 60`, `days = hours / 24`, and —
reproducing the source glitch — the hour figure shown next to a positive day
count is `minutes % 60 - days * 24` (not `hours % 24`); the display shows the
largest two applicable units (`readableUnits` is exactly that derivation). -/
theorem C5_amended (t : List Char) (wpm : ℚ) (h : 0 < wpm) :
    getReadingTimeReadable t wpm = readableUnits t wpm := by
  unfold getReadingTimeReadable readableUnits
  rw [if_neg (ne_of_gt h)]
  have hT : (0:ℚ) ≤ (getWordCount t : ℚ) / wpm :=
    div_nonneg (Nat.cast_nonneg _) (le_of_lt h)
  set T := (getWordCount t : ℚ) / wpm with hTdef
  set m0 := ⌊T⌋ with hm0def
  have hm0 : 0 ≤ m0 := Int.floor_nonneg.mpr hT
  have hdiv60 : ⌊(m0:ℚ)/60⌋ = m0 / 60 := by
    rw [show ((60:ℚ)) = ((60:ℕ):ℚ) by norm_num, Rat.floor_intCast_div_natCast]
    norm_num
  by_cases h60 : (60:ℤ) ≤ m0
  · simp only [if_pos h60]
    rw [hdiv60]
    have hmod : m0 - m0 / 60 * 60 = m0 % 60 := by rw [Int.emod_def]; ring
    rw [hmod]
    have hdiv24 : ⌊((m0/60 : ℤ):ℚ)/24⌋ = (m0/60) / 24 := by
      rw [show ((24:ℚ)) = ((24:ℕ):ℚ) by norm_num, Rat.floor_intCast_div_natCast]
      norm_num
    by_cases h24 : (24:ℤ) ≤ m0 / 60
    · simp only [if_pos h24]
      rw [hdiv24]
      have hd1 : 0 < m0 / 60 / 24 := by
        have : (1:ℤ) ≤ m0 / 60 / 24 := by
          rw [Int.le_ediv_iff_mul_le (by norm_num : (0:ℤ) < 24)]
          omega
        omega
      simp only [if_pos hd1]
    · simp only [if_neg h24]
      have hd0 : m0 / 60 / 24 = 0 := by
        apply Int.ediv_eq_zero_of_lt
        · exact Int.ediv_nonneg hm0 (by norm_num)
        · omega
      rw [hd0]
      have hh1 : 0 < m0 / 60 := by
        have : (1:ℤ) ≤ m0 / 60 := by
          rw [Int.le_ediv_iff_mul_le (by norm_num : (0:ℤ) < 60)]
          omega
        omega
      simp only [if_neg (by omega : ¬ (0:ℤ) < 0), if_pos hh1]
  · simp only [if_neg h60]
    have hdz : m0 / 60 = 0 := Int.ediv_eq_zero_of_lt hm0 (by omega)
    have hmz : m0 % 60 = m0 := Int.emod_eq_of_lt hm0 (by omega)
    rw [hdz, hmz]
    rw [if_neg (by omega : ¬ (24:ℤ) ≤ 0)]
    norm_num

/-- Witness for `C5_amended` at the one-word text `"a"` and rate `1`. -/
theorem C5_amended_witness :
    (0:ℚ) < 1 ∧ getReadingTimeReadable ("a".toList) 1 = readableUnits ("a".toList) 1 :=
  ⟨one_pos, C5_amended ("a".toList) 1 one_pos⟩

/-! ## Lower-casing commutes with the tokenizer's character classes -/

/-- `Char.ofNat` below the surrogate range keeps the code point. -/
theorem char_toNat_ofNat (n : Nat) (h : n < 55296) : (Char.ofNat n).toNat = n := by
  have hv : Nat.isValidChar n := Or.inl h
  unfold Char.ofNat
  rw [dif_pos hv]
  rfl

/-- Code point of `asciiLower`. -/
theorem toNat_asciiLower (c : Char) :
    (asciiLower c).toNat =
      if 65 ≤ c.toNat ∧ c.toNat ≤ 90 then c.toNat + 32 else c.toNat := by
  unfold asciiLower
  by_cases h : 65 ≤ c.toNat ∧ c.toNat ≤ 90
  · rw [if_pos h, if_pos h, char_toNat_ofNat]
    omega
  · rw [if_neg h, if_neg h]

/-- `asciiLower` fixes every character outside `A`–`Z`. -/
theorem asciiLower_self (c : Char) (h : ¬(65 ≤ c.toNat ∧ c.toNat ≤ 90)) :
    asciiLower c = c := by
  unfold asciiLower
  rw [if_neg h]

theorem isWordChar_asciiLower (c : Char) : isWordChar (asciiLower c) = isWordChar c := by
  simp only [isWordChar, toNat_asciiLower]
  by_cases h : 65 ≤ c.toNat ∧ c.toNat ≤ 90
  · rw [if_pos h, decide_eq_decide]
    omega
  · rw [if_neg h]

theorem isContChar_asciiLower (c : Char) : isContChar (asciiLower c) = isContChar c := by
  rw [Bool.eq_iff_iff]
  simp only [isContChar, Bool.or_eq_true, beq_iff_eq, isWordChar_asciiLower,
    toNat_asciiLower]
  by_cases h : 65 ≤ c.toNat ∧ c.toNat ≤ 90
  · rw [if_pos h]
    constructor
    · rintro (((hw | hx) | hx) | hx)
      · exact Or.inl (Or.inl (Or.inl hw))
      all_goals omega
    · rintro (((hw | hx) | hx) | hx)
      · exact Or.inl (Or.inl (Or.inl hw))
      all_goals omega
  · rw [if_neg h]

theorem isLineTerm_asciiLower (c : Char) : isLineTerm (asciiLower c) = isLineTerm c := by
  rw [Bool.eq_iff_iff]
  simp only [isLineTerm, Bool.or_eq_true, beq_iff_eq, toNat_asciiLower]
  by_cases h : 65 ≤ c.toNat ∧ c.toNat ≤ 90
  · rw [if_pos h]
    omega
  · rw [if_neg h]

theorem asciiLower_backslash (c : Char) : (asciiLower c == '\\') = (c == '\\') := by
  rw [Bool.eq_iff_iff]
  simp only [beq_iff_eq]
  by_cases h : 65 ≤ c.toNat ∧ c.toNat ≤ 90
  · constructor
    · intro he
      have h2 := congrArg Char.toNat he
      rw [toNat_asciiLower, if_pos h] at h2
      have h92 : ('\\').toNat = 92 := by decide
      omega
    · intro he
      rw [he] at h
      exact absurd h (by decide)
  · rw [asciiLower_self c h]

theorem prevIsWord_map (p : Option Char) :
    prevIsWord (p.map asciiLower) = prevIsWord p := by
  cases p with
  | none => rfl
  | some c => simp [prevIsWord, isWordChar_asciiLower]

/-! ## Lower-casing commutes with tokenization -/

theorem lookaheadOk_map (last : Char) (rest : List Char) :
    lookaheadOk (asciiLower last) (rest.map asciiLower) = lookaheadOk last rest := by
  cases rest with
  | nil => rfl
  | cons c cs =>
    cases cs with
    | nil =>
      simp only [lookaheadOk, List.map_cons, List.map_nil]
      rw [isWordChar_asciiLower, isWordChar_asciiLower, asciiLower_backslash]
    | cons d ds =>
      simp only [lookaheadOk, List.map_cons]
      rw [isWordChar_asciiLower, isWordChar_asciiLower, asciiLower_backslash,
        isLineTerm_asciiLower]

theorem btRun_map (c : Char) (revRun : List Char) : ∀ rest : List Char,
    btRun (asciiLower c) (revRun.map asciiLower) (rest.map asciiLower) =
      (btRun c revRun rest).map
        (fun pr => (pr.1.map asciiLower, pr.2.map asciiLower)) := by
  induction revRun with
  | nil =>
    intro rest
    simp only [btRun, List.map_nil]
    rw [lookaheadOk_map]
    by_cases h : lookaheadOk c rest = true
    · rw [if_pos h, if_pos h]
      rfl
    · rw [if_neg h, if_neg h]
      rfl
  | cons d ds ih =>
    intro rest
    simp only [btRun, List.map_cons]
    rw [lookaheadOk_map]
    by_cases h : lookaheadOk d rest = true
    · rw [if_pos h, if_pos h]
      simp [List.map_reverse]
    · rw [if_neg h, if_neg h]
      exact ih (d :: rest)

theorem takeWhile_cont_map (cs : List Char) :
    (cs.map asciiLower).takeWhile isContChar = (cs.takeWhile isContChar).map asciiLower := by
  rw [List.takeWhile_map]
  have h : (isContChar ∘ asciiLower) = isContChar := by
    funext x
    exact isContChar_asciiLower x
  rw [h]

theorem dropWhile_cont_map (cs : List Char) :
    (cs.map asciiLower).dropWhile isContChar = (cs.dropWhile isContChar).map asciiLower := by
  rw [List.dropWhile_map]
  have h : (isContChar ∘ asciiLower) = isContChar := by
    funext x
    exact isContChar_asciiLower x
  rw [h]

theorem tryMatch_map (prev : Option Char) (s : List Char) :
    tryMatch (prev.map asciiLower) (s.map asciiLower) =
      (tryMatch prev s).map (fun pr => (pr.1.map asciiLower, pr.2.map asciiLower)) := by
  cases s with
  | nil => rfl
  | cons c cs =>
    simp only [tryMatch, List.map_cons]
    rw [prevIsWord_map, isWordChar_asciiLower, asciiLower_backslash]
    by_cases hA : ((prevIsWord prev != isWordChar c) && isWordChar c) = true
    · rw [if_pos hA, if_pos hA]
      rw [takeWhile_cont_map, dropWhile_cont_map, ← List.map_reverse, btRun_map]
      cases hb : btRun c (cs.takeWhile isContChar).reverse (cs.dropWhile isContChar) with
      | none => rfl
      | some pr => rfl
    · rw [if_neg hA, if_neg hA]
      by_cases hB : (c == '\\') = true
      · rw [if_pos hB, if_pos hB]
        cases cs with
        | nil => rfl
        | cons d cs' =>
          cases cs' with
          | nil => rfl
          | cons w cs2 =>
            simp only [List.map_cons]
            rw [isLineTerm_asciiLower, isWordChar_asciiLower]
            by_cases hC : (!isLineTerm d && isWordChar w) = true
            · rw [if_pos hC, if_pos hC]
              rw [takeWhile_cont_map, dropWhile_cont_map, ← List.map_reverse, btRun_map]
              cases hb : btRun w (cs2.takeWhile isContChar).reverse (cs2.dropWhile isContChar) with
              | none => rfl
              | some pr => rfl
            · rw [if_neg hC, if_neg hC]
              rfl
      · rw [if_neg hB, if_neg hB]
        rfl

theorem scanWordsGo_map (fuel : Nat) :
    ∀ (prev : Option Char) (s : List Char),
      scanWordsGo fuel (prev.map asciiLower) (s.map asciiLower) =
        (scanWordsGo fuel prev s).map (List.map asciiLower) := by
  induction fuel with
  | zero => intro prev s; rfl
  | succ n ih =>
    intro prev s
    cases s with
    | nil => rfl
    | cons c cs =>
      have hmap : (c :: cs).map asciiLower = asciiLower c :: cs.map asciiLower := rfl
      simp only [scanWordsGo, hmap]
      rw [show (asciiLower c :: cs.map asciiLower) = (c :: cs).map asciiLower from rfl,
        tryMatch_map]
      cases hb : tryMatch prev (c :: cs) with
      | none =>
        simp only [Option.map_none']
        exact ih (some c) cs
      | some pr =>
        obtain ⟨tok, rest⟩ := pr
        simp only [Option.map_some']
        have hlast : (tok.map asciiLower).getLast?.getD ' ' =
            asciiLower (tok.getLast?.getD ' ') := by
          rw [List.getLast?_map]
          cases tok.getLast? with
          | none => decide
          | some a => rfl
        simp only [List.map_cons]
        rw [hlast]
        have := ih (some (tok.getLast?.getD ' ')) rest
        simp only [Option.map_some'] at this
        rw [this]

theorem getWords_map (t : List Char) :
    getWords (t.map asciiLower) = (getWords t).map (List.map asciiLower) := by
  unfold getWords
  rw [List.length_map]
  exact scanWordsGo_map (t.length + 1) none t

theorem getWordCount_lower (t : List Char) :
    getWordCount (t.map asciiLower) = getWordCount t := by
  unfold getWordCount
  rw [getWords_map, List.length_map]

/-! ## Frequency-table lemmas -/

theorem sumCounts_bump (w : List Char) (m : List (List Char × Nat)) :
    sumCounts (bump w m) = sumCounts m + 1 := by
  induction m with
  | nil => rfl
  | cons e rest ih =>
    obtain ⟨u, c⟩ := e
    simp only [bump]
    by_cases h : u = w
    · rw [if_pos h]
      simp [sumCounts]
      omega
    · rw [if_neg h]
      simp only [sumCounts, List.map_cons, List.sum_cons] at *
      omega

theorem sumCounts_foldl (ws : List (List Char)) :
    ∀ m, sumCounts (ws.foldl (fun m w => bump w m) m) = sumCounts m + ws.length := by
  induction ws with
  | nil => intro m; simp
  | cons w ws ih =>
    intro m
    simp only [List.foldl_cons, List.length_cons]
    rw [ih (bump w m), sumCounts_bump]
    omega

theorem insDescBy_perm {α : Type} (f : α → ℤ) (x : α) (l : List α) :
    List.Perm (insDescBy f x l) (x :: l) := by
  induction l with
  | nil => rfl
  | cons y ys ih =>
    simp only [insDescBy]
    by_cases h : f x < f y
    · rw [if_pos h]
      exact (ih.cons y).trans (List.Perm.swap x y ys)
    · rw [if_neg h]

theorem sortDescBy_perm {α : Type} (f : α → ℤ) (l : List α) :
    List.Perm (sortDescBy f l) l := by
  induction l with
  | nil => rfl
  | cons x xs ih =>
    exact (insDescBy_perm f x (sortDescBy f xs)).trans (ih.cons x)

theorem sumCounts_sortDescBy (f : List Char × Nat → ℤ) (l : List (List Char × Nat)) :
    sumCounts (sortDescBy f l) = sumCounts l := by
  unfold sumCounts
  exact ((sortDescBy_perm f l).map (fun e => e.2)).sum_eq

theorem mem_bump {e : List Char × Nat} {w : List Char} {m : List (List Char × Nat)} :
    e ∈ bump w m → e.1 = w ∨ e ∈ m := by
  induction m with
  | nil =>
    intro h
    simp only [bump, List.mem_singleton] at h
    subst h
    exact Or.inl rfl
  | cons p rest ih =>
    obtain ⟨u, c⟩ := p
    intro h
    simp only [bump] at h
    by_cases hu : u = w
    · rw [if_pos hu] at h
      rcases List.mem_cons.mp h with h1 | h1
      · subst h1
        exact Or.inl hu
      · exact Or.inr (List.mem_cons_of_mem _ h1)
    · rw [if_neg hu] at h
      rcases List.mem_cons.mp h with h1 | h1
      · subst h1
        exact Or.inr (List.mem_cons_self _ _)
      · rcases ih h1 with h2 | h2
        · exact Or.inl h2
        · exact Or.inr (List.mem_cons_of_mem _ h2)

theorem mem_foldl_bump {e : List Char × Nat} (ws : List (List Char)) :
    ∀ m, e ∈ ws.foldl (fun m w => bump w m) m → e.1 ∈ ws ∨ e ∈ m := by
  induction ws with
  | nil =>
    intro m h
    exact Or.inr h
  | cons w ws ih =>
    intro m h
    simp only [List.foldl_cons] at h
    rcases ih (bump w m) h with h1 | h1
    · exact Or.inl (List.mem_cons_of_mem _ h1)
    · rcases mem_bump h1 with h2 | h2
      · exact Or.inl (h2 ▸ List.mem_cons_self _ _)
      · exact Or.inr h2

theorem insDescBy_pairwise {α : Type} (f : α → ℤ) (S : α → α → Prop) (x : α)
    (l : List α)
    (hl : l.Pairwise (fun a b => f b < f a ∨ (f a = f b ∧ S a b)))
    (hx : ∀ z ∈ l, S x z) :
    (insDescBy f x l).Pairwise (fun a b => f b < f a ∨ (f a = f b ∧ S a b)) := by
  induction l with
  | nil => exact List.pairwise_singleton _ x
  | cons y ys ih =>
    simp only [insDescBy]
    by_cases h : f x < f y
    · rw [if_pos h]
      rw [List.pairwise_cons] at hl ⊢
      constructor
      · intro z hz
        have hz2 := (insDescBy_perm f x ys).mem_iff.mp hz
        rcases List.mem_cons.mp hz2 with h1 | h1
        · subst h1
          exact Or.inl h
        · exact hl.1 z h1
      · exact ih hl.2 (fun z hz => hx z (List.mem_cons_of_mem _ hz))
    · rw [if_neg h]
      rw [List.pairwise_cons] at hl
      rw [List.pairwise_cons]
      constructor
      · intro z hz
        rcases List.mem_cons.mp hz with h1 | h1
        · subst h1
          rcases lt_or_eq_of_le (not_lt.mp h) with h2 | h2
          · exact Or.inl h2
          · exact Or.inr ⟨h2.symm, hx z (List.mem_cons_self _ _)⟩
        · rcases hl.1 z h1 with h2 | h2
          · exact Or.inl (lt_of_lt_of_le h2 (not_lt.mp h))
          · rcases lt_or_eq_of_le (not_lt.mp h) with h3 | h3
            · exact Or.inl (h2.1 ▸ h3)
            · exact Or.inr ⟨h3.symm.trans h2.1, hx z (List.mem_cons_of_mem _ h1)⟩
      · exact List.pairwise_cons.mpr hl

theorem sortDescBy_stable {α : Type} (f : α → ℤ) (S : α → α → Prop) (l : List α)
    (hl : l.Pairwise S) :
    (sortDescBy f l).Pairwise (fun a b => f b < f a ∨ (f a = f b ∧ S a b)) := by
  induction l with
  | nil => exact List.Pairwise.nil
  | cons x xs ih =>
    rw [List.pairwise_cons] at hl
    exact insDescBy_pairwise f S x (sortDescBy f xs) (ih hl.2)
      (fun z hz => hl.1 z ((sortDescBy_perm f xs).mem_iff.mp hz))

theorem pairwise_true {α : Type} (l : List α) : l.Pairwise (fun _ _ => True) := by
  induction l with
  | nil => exact List.Pairwise.nil
  | cons x xs ih => exact List.pairwise_cons.mpr ⟨fun _ _ => trivial, ih⟩

theorem sortDescBy_sorted {α : Type} (f : α → ℤ) (l : List α) :
    (sortDescBy f l).Pairwise (fun a b => f b ≤ f a) := by
  have h := sortDescBy_stable f (fun _ _ => True) l (pairwise_true l)
  exact h.imp (fun hab => by
    rcases hab with h1 | h1
    · exact le_of_lt h1
    · exact le_of_eq h1.1.symm)

theorem keys_bump_of_mem {w : List Char} {m : List (List Char × Nat)}
    (h : w ∈ m.map Prod.fst) : (bump w m).map Prod.fst = m.map Prod.fst := by
  induction m with
  | nil => simp at h
  | cons p rest ih =>
    obtain ⟨u, c⟩ := p
    simp only [bump]
    by_cases hu : u = w
    · rw [if_pos hu]
      simp
    · rw [if_neg hu]
      simp only [List.map_cons] at h ⊢
      rcases List.mem_cons.mp h with h1 | h1
      · exact absurd h1.symm hu
      · rw [ih h1]

theorem bump_append_of_not_mem {w : List Char} {m : List (List Char × Nat)}
    (h : ¬ w ∈ m.map Prod.fst) : bump w m = m ++ [(w, 1)] := by
  induction m with
  | nil => rfl
  | cons p rest ih =>
    obtain ⟨u, c⟩ := p
    simp only [List.map_cons, List.mem_cons] at h
    push_neg at h
    simp only [bump]
    rw [if_neg (fun he => h.1 he.symm)]
    rw [ih h.2]
    rfl

theorem mem_keys_bump_self (w : List Char) (m : List (List Char × Nat)) :
    w ∈ (bump w m).map Prod.fst := by
  induction m with
  | nil => simp [bump]
  | cons p rest ih =>
    obtain ⟨u, c⟩ := p
    simp only [bump]
    by_cases hu : u = w
    · rw [if_pos hu]
      simp [hu]
    · rw [if_neg hu]
      simp only [List.map_cons, List.mem_cons]
      exact Or.inr ih

theorem mem_keys_bump_of_mem {u w : List Char} {m : List (List Char × Nat)}
    (h : u ∈ m.map Prod.fst) : u ∈ (bump w m).map Prod.fst := by
  induction m with
  | nil => simp at h
  | cons p rest ih =>
    obtain ⟨x, c⟩ := p
    simp only [List.map_cons, List.mem_cons] at h
    simp only [bump]
    by_cases hx : x = w
    · rw [if_pos hx]
      simp only [List.map_cons, List.mem_cons]
      exact h
    · rw [if_neg hx]
      simp only [List.map_cons, List.mem_cons]
      rcases h with h1 | h1
      · exact Or.inl h1
      · exact Or.inr (ih h1)

theorem firstIdx_append_of_mem {u : List Char} {pre : List (List Char)}
    (h : u ∈ pre) (suf : List (List Char)) :
    firstIdx u (pre ++ suf) = firstIdx u pre := by
  induction pre with
  | nil => simp at h
  | cons p ps ih =>
    simp only [List.cons_append, firstIdx]
    by_cases hp : p = u
    · rw [if_pos hp, if_pos hp]
    · rw [if_neg hp, if_neg hp]
      rcases List.mem_cons.mp h with h1 | h1
      · exact absurd h1.symm hp
      · show firstIdx u (ps ++ suf) + 1 = firstIdx u ps + 1
        rw [ih h1]

theorem firstIdx_lt_length_of_mem {u : List Char} {pre : List (List Char)}
    (h : u ∈ pre) : firstIdx u pre < pre.length := by
  induction pre with
  | nil => simp at h
  | cons p ps ih =>
    simp only [firstIdx, List.length_cons]
    by_cases hp : p = u
    · rw [if_pos hp]
      omega
    · rw [if_neg hp]
      rcases List.mem_cons.mp h with h1 | h1
      · exact absurd h1.symm hp
      · have := ih h1
        omega

theorem firstIdx_append_self {w : List Char} {pre : List (List Char)}
    (h : ¬ w ∈ pre) : firstIdx w (pre ++ [w]) = pre.length := by
  induction pre with
  | nil => simp [firstIdx]
  | cons p ps ih =>
    simp only [List.mem_cons] at h
    push_neg at h
    simp only [List.cons_append, firstIdx, List.length_cons]
    rw [if_neg (fun he => h.1 he.symm)]
    show firstIdx w (ps ++ [w]) + 1 = ps.length + 1
    rw [ih h.2]

theorem buildFreq_go (suf : List (List Char)) :
    ∀ (pre : List (List Char)) (m : List (List Char × Nat)),
      (∀ e ∈ m, e.1 ∈ pre) →
      (∀ u ∈ pre, u ∈ m.map Prod.fst) →
      (m.map Prod.fst).Pairwise (fun a b => firstIdx a pre < firstIdx b pre) →
      ((suf.foldl (fun m w => bump w m) m).map Prod.fst).Pairwise
        (fun a b => firstIdx a (pre ++ suf) < firstIdx b (pre ++ suf)) := by
  induction suf with
  | nil =>
    intro pre m h1 h2 h3
    simpa using h3
  | cons w suf ih =>
    intro pre m h1 h2 h3
    simp only [List.foldl_cons]
    have key : ((suf.foldl (fun m w => bump w m) (bump w m)).map Prod.fst).Pairwise
        (fun a b => firstIdx a ((pre ++ [w]) ++ suf) < firstIdx b ((pre ++ [w]) ++ suf)) := by
      apply ih (pre ++ [w]) (bump w m)
      · intro e he
        rcases mem_bump he with hk | hk
        · rw [hk]
          exact List.mem_append_right _ (List.mem_singleton.mpr rfl)
        · exact List.mem_append_left _ (h1 e hk)
      · intro u hu
        rcases List.mem_append.mp hu with hu1 | hu1
        · exact mem_keys_bump_of_mem (h2 u hu1)
        · rw [List.mem_singleton.mp hu1]
          exact mem_keys_bump_self w m
      · by_cases hw : w ∈ m.map Prod.fst
        · rw [keys_bump_of_mem hw]
          refine h3.imp_of_mem ?_
          intro a b ha hb hab
          have hapre : a ∈ pre := by
            rcases List.mem_map.mp ha with ⟨e, he, hea⟩
            exact hea ▸ h1 e he
          have hbpre : b ∈ pre := by
            rcases List.mem_map.mp hb with ⟨e, he, heb⟩
            exact heb ▸ h1 e he
          rw [firstIdx_append_of_mem hapre, firstIdx_append_of_mem hbpre]
          exact hab
        · have hwpre : ¬ w ∈ pre := fun hc => hw (h2 w hc)
          rw [bump_append_of_not_mem hw]
          rw [List.map_append]
          rw [List.pairwise_append]
          refine ⟨?_, ?_, ?_⟩
          · refine h3.imp_of_mem ?_
            intro a b ha hb hab
            have hapre : a ∈ pre := by
              rcases List.mem_map.mp ha with ⟨e, he, hea⟩
              exact hea ▸ h1 e he
            have hbpre : b ∈ pre := by
              rcases List.mem_map.mp hb with ⟨e, he, heb⟩
              exact heb ▸ h1 e he
            rw [firstIdx_append_of_mem hapre, firstIdx_append_of_mem hbpre]
            exact hab
          · simp
          · intro a ha b hb
            simp only [List.map_cons, List.map_nil, List.mem_singleton] at hb
            subst hb
            have hapre : a ∈ pre := by
              rcases List.mem_map.mp ha with ⟨e, he, hea⟩
              exact hea ▸ h1 e he
            rw [firstIdx_append_of_mem hapre, firstIdx_append_self hwpre]
            exact firstIdx_lt_length_of_mem hapre
    have : (pre ++ [w]) ++ suf = pre ++ w :: suf := by simp
    rw [this] at key
    exact key


/-! ## Tokens draw their characters from the input -/

/-- Members of a `takeWhile` are members of the list. -/
theorem mem_of_takeWhile {p : Char → Bool} {x : Char} :
    ∀ {l : List Char}, x ∈ l.takeWhile p → x ∈ l := by
  intro l
  induction l with
  | nil =>
    intro h
    simp [List.takeWhile] at h
  | cons c cs ih =>
    intro h
    rw [List.takeWhile_cons] at h
    by_cases hp : p c = true
    · rw [if_pos hp] at h
      rcases List.mem_cons.mp h with h1 | h1
      · exact h1 ▸ List.mem_cons_self _ _
      · exact List.mem_cons_of_mem _ (ih h1)
    · rw [if_neg hp] at h
      simp at h

/-- Members of a `dropWhile` are members of the list. -/
theorem mem_of_dropWhile {p : Char → Bool} {x : Char} :
    ∀ {l : List Char}, x ∈ l.dropWhile p → x ∈ l := by
  intro l
  induction l with
  | nil =>
    intro h
    simp [List.dropWhile] at h
  | cons c cs ih =>
    intro h
    rw [List.dropWhile_cons] at h
    by_cases hp : p c = true
    · rw [if_pos hp] at h
      exact List.mem_cons_of_mem _ (ih h)
    · rw [if_neg hp] at h
      exact h

/-- The characters kept and released by the backtracking step come from the
run and the tail it started with. -/
theorem btRun_mem (c : Char) : ∀ (revRun rest kept rest2 : List Char),
    btRun c revRun rest = some (kept, rest2) →
    (∀ x ∈ kept, x ∈ revRun) ∧ (∀ x ∈ rest2, x ∈ revRun ∨ x ∈ rest) := by
  intro revRun
  induction revRun with
  | nil =>
    intro rest kept rest2 h
    simp only [btRun] at h
    by_cases hl : lookaheadOk c rest = true
    · rw [if_pos hl] at h
      cases h
      exact ⟨by simp, fun x hx => Or.inr hx⟩
    · rw [if_neg hl] at h
      cases h
  | cons d ds ih =>
    intro rest kept rest2 h
    simp only [btRun] at h
    by_cases hl : lookaheadOk d rest = true
    · rw [if_pos hl] at h
      cases h
      constructor
      · intro x hx
        rw [List.mem_reverse] at hx
        exact hx
      · exact fun x hx => Or.inr hx
    · rw [if_neg hl] at h
      rcases ih (d :: rest) kept rest2 h with ⟨h1, h2⟩
      refine ⟨fun x hx => List.mem_cons_of_mem _ (h1 x hx), fun x hx => ?_⟩
      rcases h2 x hx with hx1 | hx1
      · exact Or.inl (List.mem_cons_of_mem _ hx1)
      · rcases List.mem_cons.mp hx1 with hx2 | hx2
        · exact Or.inl (hx2 ▸ List.mem_cons_self _ _)
        · exact Or.inr hx2

/-- A match and the rest it leaves consist of characters of the input. -/
theorem tryMatch_mem (prev : Option Char) (s tok rest : List Char)
    (h : tryMatch prev s = some (tok, rest)) :
    (∀ x ∈ tok, x ∈ s) ∧ (∀ x ∈ rest, x ∈ s) := by
  cases s with
  | nil => simp [tryMatch] at h
  | cons c cs =>
    simp only [tryMatch] at h
    by_cases hA : ((prevIsWord prev != isWordChar c) && isWordChar c) = true
    · rw [if_pos hA] at h
      cases hb : btRun c (cs.takeWhile isContChar).reverse (cs.dropWhile isContChar) with
      | none =>
        rw [hb] at h
        cases h
      | some pr =>
        obtain ⟨kept, r2⟩ := pr
        rw [hb] at h
        cases h
        rcases btRun_mem c _ _ _ _ hb with ⟨h1, h2⟩
        constructor
        · intro x hx
          rcases List.mem_cons.mp hx with hx1 | hx1
          · exact hx1 ▸ List.mem_cons_self _ _
          · have hx2 := h1 x hx1
            rw [List.mem_reverse] at hx2
            exact List.mem_cons_of_mem _ (mem_of_takeWhile hx2)
        · intro x hx
          rcases h2 x hx with hx1 | hx1
          · rw [List.mem_reverse] at hx1
            exact List.mem_cons_of_mem _ (mem_of_takeWhile hx1)
          · exact List.mem_cons_of_mem _ (mem_of_dropWhile hx1)
    · rw [if_neg hA] at h
      by_cases hB : (c == '\\') = true
      · rw [if_pos hB] at h
        cases cs with
        | nil => cases h
        | cons d cs1 =>
          cases cs1 with
          | nil => cases h
          | cons w cs2 =>
            by_cases hC : (!isLineTerm d && isWordChar w) = true
            · simp only [if_pos hC] at h
              cases hb : btRun w (cs2.takeWhile isContChar).reverse
                  (cs2.dropWhile isContChar) with
              | none =>
                rw [hb] at h
                cases h
              | some pr =>
                obtain ⟨kept, r2⟩ := pr
                rw [hb] at h
                cases h
                rcases btRun_mem w _ _ _ _ hb with ⟨h1, h2⟩
                constructor
                · intro x hx
                  rcases List.mem_cons.mp hx with hx1 | hx1
                  · exact hx1 ▸ List.mem_cons_self _ _
                  rcases List.mem_cons.mp hx1 with hx2 | hx2
                  · exact hx2 ▸ List.mem_cons_of_mem _ (List.mem_cons_self _ _)
                  rcases List.mem_cons.mp hx2 with hx3 | hx3
                  · exact hx3 ▸ List.mem_cons_of_mem _
                      (List.mem_cons_of_mem _ (List.mem_cons_self _ _))
                  · have hx4 := h1 x hx3
                    rw [List.mem_reverse] at hx4
                    exact List.mem_cons_of_mem _ (List.mem_cons_of_mem _
                      (List.mem_cons_of_mem _ (mem_of_takeWhile hx4)))
                · intro x hx
                  rcases h2 x hx with hx1 | hx1
                  · rw [List.mem_reverse] at hx1
                    exact List.mem_cons_of_mem _ (List.mem_cons_of_mem _
                      (List.mem_cons_of_mem _ (mem_of_takeWhile hx1)))
                  · exact List.mem_cons_of_mem _ (List.mem_cons_of_mem _
                      (List.mem_cons_of_mem _ (mem_of_dropWhile hx1)))
            · simp only [if_neg hC] at h
              cases h
      · rw [if_neg hB] at h
        cases h

/-- Every token of the scan consists of characters of the input. -/
theorem scanWordsGo_mem (fuel : Nat) :
    ∀ (prev : Option Char) (s tok : List Char),
      tok ∈ scanWordsGo fuel prev s → ∀ x ∈ tok, x ∈ s := by
  induction fuel with
  | zero =>
    intro prev s tok h
    simp [scanWordsGo] at h
  | succ n ih =>
    intro prev s tok h
    cases s with
    | nil => simp [scanWordsGo] at h
    | cons c cs =>
      simp only [scanWordsGo] at h
      cases hb : tryMatch prev (c :: cs) with
      | none =>
        rw [hb] at h
        exact fun x hx => List.mem_cons_of_mem _ (ih (some c) cs tok h x hx)
      | some pr =>
        obtain ⟨tk, rest⟩ := pr
        rw [hb] at h
        rcases List.mem_cons.mp h with h1 | h1
        · subst h1
          exact fun x hx => (tryMatch_mem prev _ _ _ hb).1 x hx
        · intro x hx
          exact (tryMatch_mem prev _ _ _ hb).2 _ (ih _ rest tok h1 x hx)

/-- Every token of `getWords t` consists of characters of `t`. -/
theorem getWords_chars (t tok : List Char) (h : tok ∈ getWords t) :
    ∀ x ∈ tok, x ∈ t :=
  scanWordsGo_mem (t.length + 1) none t tok h

/-! ## Lower-casing ASCII text -/

/-- On an ASCII code unit, `toLowerCase` is the Basic Latin lowering. -/
theorem jsToLowerChar_ascii (c : Char) (h : c.toNat ≤ 127) :
    jsToLowerChar c = [asciiLower c] := by
  unfold jsToLowerChar asciiLower
  by_cases hr : 65 ≤ c.toNat ∧ c.toNat ≤ 90
  · rw [if_pos hr, if_pos hr]
  · rw [if_neg hr, if_neg hr, if_neg (by omega : ¬ c.toNat = 8490),
      if_neg (by omega : ¬ c.toNat = 304)]

/-- On an ASCII text, `toLowerCase` maps `asciiLower` over the units. -/
theorem jsToLower_ascii (s : List Char) (h : ∀ c ∈ s, c.toNat ≤ 127) :
    jsToLower s = s.map asciiLower := by
  induction s with
  | nil => rfl
  | cons c cs ih =>
    simp only [jsToLower, List.map_cons]
    rw [jsToLowerChar_ascii c (h c (List.mem_cons_self _ _)),
      ih (fun x hx => h x (List.mem_cons_of_mem _ hx))]
    rfl

/-! ## Claim C2 (corrected) -/

/-- C2 counterexample: `toLowerCase` maps U+212A KELVIN SIGN to the ASCII
`k`, which `\w` matches although U+212A itself does not, so tokenization
does not commute with lower-casing: on the one-character text `"\u212A"`
the frequency table is `[("k", 1)]` — its counts sum to `1` — while
`wordCount` is `0` and `tokenize` returns no token at all, so `"k"` is not
the lowercasing of any token.  Both parts of the claim fail. -/
theorem C2_counterexample :
    calculateWordFrequency ('\u212A' :: []) = [("k".toList, 1)] ∧
      sumCounts (calculateWordFrequency ('\u212A' :: [])) = 1 ∧
      getWordCount ('\u212A' :: []) = 0 ∧
      getWords ('\u212A' :: []) = [] := by
  refine ⟨by decide, by decide, by decide, by decide⟩

/-- C2 as amended: for every text `t` the counts in `frequency(t)` sum to
the word count of `toLowerCase(t)` and every table word is itself a token of
`toLowerCase(t)`; the original identities — sum equal to `wordCount(t)` and
every table word the lowercasing of a token of `tokenize(t)` — hold for
every ASCII text (where lower-casing commutes with tokenization), but not in
general (see `C2_counterexample`). -/
theorem C2_amended :
    (∀ t : List Char,
      sumCounts (calculateWordFrequency t) = getWordCount (jsToLower t) ∧
      ∀ w c, (w, c) ∈ calculateWordFrequency t → w ∈ getWords (jsToLower t)) ∧
    (∀ t : List Char, (∀ c ∈ t, c.toNat ≤ 127) →
      sumCounts (calculateWordFrequency t) = getWordCount t ∧
      ∀ w c, (w, c) ∈ calculateWordFrequency t →
        ∃ tok ∈ getWords t, w = jsToLower tok) := by
  constructor
  · intro t
    unfold calculateWordFrequency
    by_cases h0 : t.isEmpty
    · rw [if_pos h0]
      have ht : t = [] := List.isEmpty_iff.mp h0
      subst ht
      exact ⟨rfl, fun w c hmem => absurd hmem (List.not_mem_nil _)⟩
    · rw [if_neg h0]
      by_cases hw : (getWords (jsToLower t)).isEmpty
      · rw [if_pos hw]
        constructor
        · unfold getWordCount
          rw [List.isEmpty_iff.mp hw]
          rfl
        · intro w c hmem
          simp at hmem
      · rw [if_neg hw]
        constructor
        · rw [sumCounts_sortDescBy]
          unfold buildFreq
          rw [sumCounts_foldl]
          unfold getWordCount sumCounts
          simp
        · intro w c hmem
          have hmem2 : (w, c) ∈ buildFreq (getWords (jsToLower t)) :=
            (sortDescBy_perm _ _).mem_iff.mp hmem
          rcases mem_foldl_bump _ _ hmem2 with h1 | h1
          · exact h1
          · simp at h1
  · intro t hasc
    have hlow : jsToLower t = t.map asciiLower := jsToLower_ascii t hasc
    unfold calculateWordFrequency
    rw [hlow]
    by_cases h0 : t.isEmpty
    · rw [if_pos h0]
      constructor
      · have ht : t = [] := List.isEmpty_iff.mp h0
        subst ht
        rfl
      · intro w c hmem
        simp at hmem
    · rw [if_neg h0]
      by_cases hw : (getWords (t.map asciiLower)).isEmpty
      · rw [if_pos hw]
        constructor
        · have h1 : (getWords (t.map asciiLower)).length = 0 := by
            rw [List.isEmpty_iff.mp hw]
            rfl
          rw [getWords_map, List.length_map] at h1
          unfold getWordCount
          rw [h1]
          rfl
        · intro w c hmem
          simp at hmem
      · rw [if_neg hw]
        constructor
        · rw [sumCounts_sortDescBy]
          unfold buildFreq
          rw [sumCounts_foldl]
          rw [getWords_map, List.length_map]
          unfold getWordCount sumCounts
          simp
        · intro w c hmem
          have hmem2 : (w, c) ∈ buildFreq (getWords (t.map asciiLower)) :=
            (sortDescBy_perm _ _).mem_iff.mp hmem
          rcases mem_foldl_bump _ _ hmem2 with h1 | h1
          · rw [getWords_map] at h1
            rcases List.mem_map.mp h1 with ⟨tok, htok, heq⟩
            have htokA : ∀ x ∈ tok, x.toNat ≤ 127 :=
              fun x hx => hasc x (getWords_chars t tok htok x hx)
            refine ⟨tok, htok, ?_⟩
            rw [jsToLower_ascii tok htokA, heq]
          · simp at h1

/-- Witness for `C2_amended` at the one-word ASCII text `"a"`. -/
theorem C2_amended_witness :
    sumCounts (calculateWordFrequency ("a".toList)) =
        getWordCount (jsToLower ("a".toList)) ∧
      ("a".toList) ∈ getWords (jsToLower ("a".toList)) ∧
      sumCounts (calculateWordFrequency ("a".toList)) = getWordCount ("a".toList) ∧
      (∃ tok ∈ getWords ("a".toList), ("a".toList) = jsToLower tok) :=
  ⟨(C2_amended.1 ("a".toList)).1,
    (C2_amended.1 ("a".toList)).2 ("a".toList) 1 (by decide),
    (C2_amended.2 ("a".toList) (by decide)).1,
    (C2_amended.2 ("a".toList) (by decide)).2 ("a".toList) 1 (by decide)⟩

/-! ## Claim C6 -/

/-- C6: for every text `t`, `frequency(t)` is sorted descending by count, and
entries with equal counts appear in the order of their words' first
occurrence in the (lowercased) token list of `t`; in particular the frequency
of `"b a b a c"` is `[(b,2),(a,2),(c,1)]` with `b` before `a`. -/
theorem C6_frequency_sorted_stable :
    (∀ t : List Char,
      (calculateWordFrequency t).Pairwise (fun x y =>
        y.2 < x.2 ∨ (x.2 = y.2 ∧
          firstIdx x.1 (getWords (jsToLower t)) <
            firstIdx y.1 (getWords (jsToLower t))))) ∧
      calculateWordFrequency ("b a b a c".toList) =
        [("b".toList, 2), ("a".toList, 2), ("c".toList, 1)] := by
  constructor
  · intro t
    unfold calculateWordFrequency
    by_cases h0 : t.isEmpty
    · rw [if_pos h0]
      exact List.Pairwise.nil
    · rw [if_neg h0]
      by_cases hw : (getWords (jsToLower t)).isEmpty
      · rw [if_pos hw]
        exact List.Pairwise.nil
      · rw [if_neg hw]
        have hkeys := buildFreq_go (getWords (jsToLower t)) [] []
          (by simp) (by simp) (by simp)
        simp only [List.nil_append] at hkeys
        have hS := List.pairwise_map.mp hkeys
        have hst := sortDescBy_stable (fun e => (e.2 : ℤ)) _ _ hS
        refine hst.imp ?_
        intro a b hab
        rcases hab with h1 | h1
        · have h2 : (b.2 : ℤ) < (a.2 : ℤ) := h1
          exact Or.inl (by exact_mod_cast h2)
        · have h2 : (a.2 : ℤ) = (b.2 : ℤ) := h1.1
          exact Or.inr ⟨by exact_mod_cast h2, h1.2⟩
  · decide

/-! ## Fuzzy-search lemmas -/

/-- A triple kept by the score loop carries exactly the score of its entry. -/
theorem scoreOf_inv (st : List Char) (wf : List (List Char × Nat))
    (r : List Char × Nat × ℤ)
    (hr : r ∈ wf.filterMap (fun e =>
      let score := scoreOf st e
      if 0 < score then some (e.1, e.2, score) else none)) :
    r.2.2 = scoreOf st (r.1, r.2.1) := by
  rcases List.mem_filterMap.mp hr with ⟨a, ha, hfa⟩
  by_cases hs : 0 < scoreOf st a
  · rw [if_pos hs] at hfa
    cases hfa
    rfl
  · rw [if_neg hs] at hfa
    cases hfa

/-- The output of a non-empty-query search lists entries in weakly descending
score order (score recomputed from the entry by `scoreOf`). -/
theorem fuzzySearch_sorted_by_score (query : List Char) (wf : List (List Char × Nat)) (limit : Nat)
    (hq : ¬ (trimChars query).isEmpty = true) :
    (fuzzySearch query wf limit).Pairwise (fun a b =>
      scoreOf (trimChars (jsToLower query)) b ≤
        scoreOf (trimChars (jsToLower query)) a) := by
  unfold fuzzySearch
  by_cases h0 : wf.length = 0
  · rw [if_pos h0]
    exact List.Pairwise.nil
  · rw [if_neg h0, if_neg hq]
    rw [List.pairwise_map]
    have hsorted := sortDescBy_sorted (fun r : List Char × Nat × ℤ => r.2.2)
      (wf.filterMap (fun e =>
        let score := scoreOf (trimChars (jsToLower query)) e
        if 0 < score then some (e.1, e.2, score) else none))
    have htake := hsorted.sublist (List.take_sublist limit _)
    refine htake.imp_of_mem ?_
    intro a b ha hb hab
    have ha2 := (sortDescBy_perm _ _).mem_iff.mp (List.take_subset _ _ ha)
    have hb2 := (sortDescBy_perm _ _).mem_iff.mp (List.take_subset _ _ hb)
    rw [← scoreOf_inv _ wf a ha2, ← scoreOf_inv _ wf b hb2]
    exact hab

/-- Similarity of `"hat"` against the search term `"cat"`:
edit distance 1 over length 3. -/
theorem hat_similarity :
    calculateSimilarity (jsToLower ("hat".toList)) ("cat".toList) = 2/3 := by
  have hmap : jsToLower ("hat".toList) = "hat".toList := by decide
  rw [hmap]
  simp only [calculateSimilarity]
  rw [if_neg (show ¬ (("hat".toList).length > ("cat".toList).length) from by decide)]
  rw [if_neg (show ¬ (("hat".toList).length > ("cat".toList).length) from by decide)]
  rw [if_neg (show ¬ (("cat".toList).length = 0) from by decide)]
  rw [show levenshteinDistance ("cat".toList) ("hat".toList) = 1 from by decide]
  rw [show ("cat".toList).length = 3 from by decide]
  push_cast
  norm_num

/-- Fuzzy-tier score of `("hat", 10)` for the query `"cat"`:
`⌊(2/3)·200⌋ + 10 = 143`. -/
theorem hat_score :
    scoreOf ("cat".toList) (("hat".toList), 10) = 143 := by
  simp only [scoreOf]
  rw [if_neg (show ¬ ((jsToLower ("hat".toList)) = "cat".toList) from by decide)]
  rw [if_neg (show ¬ (List.isPrefixOf ("cat".toList) (jsToLower ("hat".toList)) = true)
    from by decide)]
  rw [if_neg (show ¬ (containsSub ("cat".toList) (jsToLower ("hat".toList)) = true)
    from by decide)]
  rw [if_neg (show ¬ (regexTest (mkPattern ("cat".toList)) ("hat".toList) = true)
    from by decide)]
  rw [hat_similarity]
  rw [if_pos (show (3/5 : ℚ) < 2/3 from by norm_num)]
  have hfloor : ⌊(2/3 : ℚ) * 200⌋ = 133 := by
    rw [Int.floor_eq_iff]
    norm_num
  rw [hfloor]
  norm_num

/-- The specification's example table is ranked `cat > cats > hat` (scores
`1005 > 803 > 143`). -/
theorem fuzzySearch_example_ranking :
    fuzzySearch ("cat".toList)
        [(("cat".toList), 5), (("cats".toList), 3), (("hat".toList), 10)] 50 =
      [(("cat".toList), 5), (("cats".toList), 3), (("hat".toList), 10)] := by
  have h1 : scoreOf ("cat".toList) (("cat".toList), 5) = 1005 := by decide
  have h2 : scoreOf ("cat".toList) (("cats".toList), 3) = 803 := by decide
  have hst : trimChars (jsToLower ("cat".toList)) = "cat".toList := by decide
  simp only [fuzzySearch]
  rw [if_neg (show ¬ (([(("cat".toList), 5), (("cats".toList), 3), (("hat".toList), 10)] :
    List (List Char × Nat)).length = 0) from by decide)]
  rw [if_neg (show ¬ ((trimChars ("cat".toList)).isEmpty = true) from by decide)]
  simp only [hst, List.filterMap_cons, List.filterMap_nil, h1, h2, hat_score]
  decide

/-! ## Claim C10 -/

/-- C10: for every query, frequency table and limit, `search` returns at most
`limit` pairs, and every returned `(word, count)` pair occurs verbatim in the
input table with its count unchanged — search never invents entries or alters
counts. -/
theorem C10_search_subset (query : List Char) (wf : List (List Char × Nat)) (limit : Nat) :
    (fuzzySearch query wf limit).length ≤ limit ∧
      ∀ e ∈ fuzzySearch query wf limit, e ∈ wf := by
  unfold fuzzySearch
  by_cases h0 : wf.length = 0
  · rw [if_pos h0]
    exact ⟨Nat.zero_le _, fun e he => absurd he (List.not_mem_nil e)⟩
  · rw [if_neg h0]
    by_cases h1 : (trimChars query).isEmpty
    · rw [if_pos h1]
      exact ⟨List.length_take_le _ _, fun e he => List.take_subset _ _ he⟩
    · rw [if_neg h1]
      constructor
      · rw [List.length_map]
        exact List.length_take_le _ _
      · intro e he
        rcases List.mem_map.mp he with ⟨tr, htr, hetr⟩
        have htr2 := List.take_subset _ _ htr
        have htr3 := (sortDescBy_perm _ _).mem_iff.mp htr2
        rcases List.mem_filterMap.mp htr3 with ⟨a, ha, hfa⟩
        by_cases hs : 0 < scoreOf (trimChars (jsToLower query)) a
        · rw [if_pos hs] at hfa
          cases hfa
          rw [← hetr]
          exact ha
        · rw [if_neg hs] at hfa
          cases hfa

/-- Witness for `C10_search_subset` at a concrete query and table. -/
theorem C10_search_subset_witness :
    (fuzzySearch ("a".toList) [(("a".toList), 1)] 5).length ≤ 5 ∧
      (("a".toList), 1) ∈ [(("a".toList), 1)] :=
  ⟨(C10_search_subset ("a".toList) [(("a".toList), 1)] 5).1,
    (C10_search_subset ("a".toList) [(("a".toList), 1)] 5).2 (("a".toList), 1) (by decide)⟩

/-! ## Claim C3 (corrected) -/

/-- C3 counterexample: the score is tier base *plus raw frequency*, so a
lower-tier entry with a large enough count outranks a higher-tier one: for
query `"cat"` over `[("cat", 1), ("catalog", 300)]` the exact match `"cat"`
scores `1001` but the prefix match `"catalog"` scores `1100` and is ranked
first — tiers do *not* dominate regardless of raw frequency. -/
theorem C3_counterexample :
    fuzzySearch ("cat".toList) [(("cat".toList), 1), (("catalog".toList), 300)] 50 =
      [(("catalog".toList), 300), (("cat".toList), 1)] := by
  decide

/-- C3 as amended: `search` ranks entries by total score = tier base (exact
1000, prefix 800, substring 600, wildcard 400, fuzzy `⌊200·similarity⌋`) plus
the entry's raw frequency, listed in descending score order (stable), so a
higher tier wins only while the frequency difference is below the base-score
gap; on the specification's example table `[("cat",5),("cats",3),("hat",10)]`
the ranking `cat > cats > hat` does hold. -/
theorem C3_amended :
    fuzzySearch ("cat".toList)
        [(("cat".toList), 5), (("cats".toList), 3), (("hat".toList), 10)] 50 =
      [(("cat".toList), 5), (("cats".toList), 3), (("hat".toList), 10)] ∧
      ∀ (query : List Char) (wf : List (List Char × Nat)) (limit : Nat),
        ¬ (trimChars query).isEmpty = true →
        (fuzzySearch query wf limit).Pairwise (fun a b =>
          scoreOf (trimChars (jsToLower query)) b ≤
            scoreOf (trimChars (jsToLower query)) a) :=
  ⟨fuzzySearch_example_ranking, fun query wf limit hq =>
    fuzzySearch_sorted_by_score query wf limit hq⟩

/-- Witness for `C3_amended` at the query `"cat"` over the example table. -/
theorem C3_amended_witness :
    (fuzzySearch ("cat".toList)
        [(("cat".toList), 5), (("cats".toList), 3), (("hat".toList), 10)] 50).Pairwise
      (fun a b => scoreOf (trimChars (jsToLower ("cat".toList))) b ≤
        scoreOf (trimChars (jsToLower ("cat".toList))) a) :=
  C3_amended.2 ("cat".toList)
    [(("cat".toList), 5), (("cats".toList), 3), (("hat".toList), 10)] 50 (by decide)
